import Mathlib

/-!
Verification of the GateWay static file server core
(src/util/path.go and src/fileserver/fileserver.go).

The Go code is shallowly embedded: strings are modelled as Lean `String`
(lists of characters); the handful of Go standard-library functions the
code calls (`path/filepath.Clean`, `Join`, `Abs`, `Match`, `path.Base`,
`strings.Split`, `strings.TrimRight`, `strconv.FormatInt`) are translated
from their Go sources, specialised to the unix path separator `/` used by
the repository's path logic.  Byte-level operations of the Go originals
are modelled at character level, which coincides with the byte semantics
on ASCII data.  Loops whose Go termination argument is not structural are
given a fuel argument that provably dominates the loop's iteration count
(each iteration consumes at least one character), so every definition is
executable by the kernel.
-/

/-- Characters of a string, membership of a single character
(`strings.Contains(s, one-char)` / `strings.ContainsRune`). -/
def strHas (s : String) (c : Char) : Bool :=
  s.data.any (fun x => x = c)

/-- Go `strings.HasPrefix`, at character level. -/
def goStartsWith (s pre : String) : Bool :=
  pre.data.isPrefixOf s.data

/-- Go `strings.HasSuffix`, at character level. -/
def goHasSuffix (s suf : String) : Bool :=
  suf.data.isSuffixOf s.data

/-- Drop the first `n` characters of a string (Go slicing `s[n:]` on
ASCII data). -/
def strDrop (s : String) (n : Nat) : String :=
  ⟨s.data.drop n⟩

/-- Go `strings.Split(s, "/")` on character lists: accumulate the current
field, emit it at each separator. -/
def splitSepAux : List Char → List Char → List (List Char)
  | [], cur => [cur.reverse]
  | c :: rest, cur =>
    if c = '/' then cur.reverse :: splitSepAux rest [] else splitSepAux rest (c :: cur)

/-- Go `strings.Split(s, "/")`. -/
def goSplitSep (s : String) : List String :=
  (splitSepAux s.data []).map (fun l => ⟨l⟩)

/-- Go `strings.Join(parts, "/")`. -/
def joinSep : List String → String
  | [] => ""
  | [s] => s
  | s :: rest => s ++ "/" ++ joinSep rest

/-!
Go `path.Clean` (= `filepath.Clean` on unix), translated from the Go
standard library.  The Go original walks the input with a read index and
maintains an output buffer `out` with write index `out.w`; we represent
the buffer as a reversed character list (head = most recently written
character), and return the final `(dotdot, out)` loop state.
-/

/-- The inner backtracking loop of Go `path.Clean`'s `..` case:
after the unconditional `out.w--`, keep decrementing `out.w` while
`out.w > dotdot` and the character just written off is not `/`.
`popped` is the character most recently dropped, `buf` the remaining
reversed buffer. -/
def popLoop (dotdot : Nat) (popped : Char) : List Char → List Char
  | [] => []
  | c :: rest =>
    if (c :: rest).length > dotdot ∧ popped ≠ '/' then popLoop dotdot c rest
    else c :: rest

/-- The `..` case of Go `path.Clean` when `out.w > dotdot`: remove the
buffer's last path element (`out.w--` followed by the backtracking loop). -/
def cleanBacktrack (dotdot : Nat) (out : List Char) : List Char :=
  match out with
  | [] => []
  | c :: rest => popLoop dotdot c rest

/-- The main loop of Go `path.Clean`.  State: `rooted` (input began with
`/`), `dotdot` (the buffer position up to which `..` may not backtrack),
`out` (the output buffer, reversed), and the remaining input.  `fuel`
bounds the number of iterations; every iteration consumes at least one
input character, so `fuel = input length` always suffices and the
fuel-exhaustion branch is unreachable from `goPathClean`. -/
def cleanLoopF : Nat → Bool → Nat → List Char → List Char → Nat × List Char
  | _, _, dotdot, out, [] => (dotdot, out)
  | 0, _, dotdot, out, _ => (dotdot, out)
  | fuel+1, rooted, dotdot, out, c :: rest =>
    if c = '/' then
      -- empty path element
      cleanLoopF fuel rooted dotdot out rest
    else if c = '.' ∧ (rest = [] ∨ rest.head? = some '/') then
      -- `.` element
      cleanLoopF fuel rooted dotdot out rest
    else if c = '.' ∧ rest.head? = some '.' ∧
        (rest.tail = [] ∨ rest.tail.head? = some '/') then
      -- `..` element: remove to last `/`
      if out.length > dotdot then
        cleanLoopF fuel rooted dotdot (cleanBacktrack dotdot out) rest.tail
      else if rooted = false then
        -- cannot backtrack, but not rooted, so append a `..` element
        let out1 := if out = [] then out else '/' :: out
        let out2 := '.' :: '.' :: out1
        cleanLoopF fuel rooted out2.length out2 rest.tail
      else
        cleanLoopF fuel rooted dotdot out rest.tail
    else
      -- real path element: add `/` if needed, then copy the element
      let seg := (c :: rest).takeWhile (fun x => x ≠ '/')
      let rest2 := (c :: rest).dropWhile (fun x => x ≠ '/')
      let out1 :=
        if (rooted = true ∧ out.length ≠ 1) ∨ (rooted = false ∧ out ≠ []) then
          '/' :: out
        else out
      cleanLoopF fuel rooted dotdot (seg.reverse ++ out1) rest2

/-- Go `path.Clean` (= `filepath.Clean` with separator `/`). -/
def goPathClean (path : String) : String :=
  if path = "" then "."
  else
    let p := path.data
    let rooted := p.head? = some '/'
    let start : Nat × List Char × List Char :=
      if rooted then (1, ['/'], p.tail) else (0, [], p)
    let out := (cleanLoopF p.length rooted start.1 start.2.1 start.2.2).2
    if out = [] then "." else ⟨out.reverse⟩

/-- Go `path/filepath.Join` restricted to two elements (unix): skip
leading empty elements, join the rest with `/` and clean. -/
def goFilepathJoin (a b : String) : String :=
  if a ≠ "" then goPathClean (a ++ "/" ++ b)
  else if b ≠ "" then goPathClean b
  else ""

/-- `util.SanitizedPathJoin` from src/util/path.go: normalize an empty
root to `.`, join the root with the request path forced absolute and
cleaned, and re-add the trailing separator that cleaning stripped when
the request path ended in `/` and was longer than one character. -/
def SanitizedPathJoin (root reqPath : String) : String :=
  let root2 := if root = "" then "." else root
  let path := goFilepathJoin root2 (goPathClean ("/" ++ reqPath))
  if goHasSuffix reqPath "/" ∧ reqPath.length > 1 then path ++ "/" else path

/-!
Go `path/filepath.Match` (unix), translated from the Go standard
library (`match.go`).  Errors (`ErrBadPattern`) are modelled by
`Option`: `none` stands for a non-nil error (on every error return of
the Go original the boolean result is `false`, which is what the
call sites in fileserver.go use after discarding the error).
-/

/-- The leading-star loop of Go `scanChunk`: strip leading `*`s,
remembering whether any was present. -/
def scanStars : List Char → Bool × List Char
  | [] => (false, [])
  | c :: cs => if c = '*' then (true, (scanStars cs).2) else (false, c :: cs)

/-- The `Scan` loop of Go `scanChunk`: copy pattern characters into the
chunk until an unescaped `*` outside a `[...]` range, tracking the
`inrange` flag; a `\\` copies the following character as well. -/
def scanChunkLoop : List Char → Bool → List Char × List Char
  | [], _ => ([], [])
  | c :: cs, inrange =>
    if c = '\\' then
      match cs with
      | d :: ds => let r := scanChunkLoop ds inrange; (c :: d :: r.1, r.2)
      | [] => let r := scanChunkLoop [] inrange; (c :: r.1, r.2)
    else if c = '[' then let r := scanChunkLoop cs true; (c :: r.1, r.2)
    else if c = ']' then let r := scanChunkLoop cs false; (c :: r.1, r.2)
    else if c = '*' then
      if inrange then let r := scanChunkLoop cs inrange; (c :: r.1, r.2)
      else ([], c :: cs)
    else let r := scanChunkLoop cs inrange; (c :: r.1, r.2)

/-- Go `scanChunk`: split the pattern into a leading-star flag, the next
chunk, and the remaining pattern. -/
def scanChunk (pattern0 : List Char) : Bool × List Char × List Char :=
  let s := scanStars pattern0
  let r := scanChunkLoop s.2 false
  (s.1, r.1, r.2)

/-- Go `getEsc`: read a possibly-escaped character out of a `[...]`
range; `none` is `ErrBadPattern`.  (The RuneError check of the original
cannot fire at character level.) -/
def getEsc : List Char → Option (Char × List Char)
  | [] => none
  | c :: cs =>
    if c = '-' ∨ c = ']' then none
    else if c = '\\' then
      match cs with
      | [] => none
      | r :: rest => if rest = [] then none else some (r, rest)
    else if cs = [] then none else some (c, cs)

/-- The range-parsing loop of the `[` case of Go `matchChunk`: parse
`lo`(-`hi`) ranges until a closing `]` (with at least one range seen),
accumulating whether the character `r` fell in any range.  Every
iteration consumes at least one pattern character, so
`fuel = chunk length` suffices. -/
def matchRangesF : Nat → Char → Bool → Nat → List Char → Option (Bool × List Char)
  | 0, _, _, _, _ => none
  | fuel+1, r, m, nrange, chunk =>
    if chunk.head? = some ']' ∧ nrange > 0 then some (m, chunk.tail)
    else
      match getEsc chunk with
      | none => none
      | some (lo, chunk1) =>
        match (if chunk1.head? = some '-' then getEsc chunk1.tail else some (lo, chunk1)) with
        | none => none
        | some (hi, chunk2) =>
          matchRangesF fuel r (m || (decide (lo ≤ r) && decide (r ≤ hi))) (nrange+1) chunk2

/-- Go `matchChunk`: match a chunk against the head of `s`.  Result
`none` is `ErrBadPattern`; `some none` is a failed match; `some (some t)`
is a successful match leaving `t` of the name unconsumed.  The `failed`
flag mirrors the Go original, which keeps scanning the chunk after a
mismatch to report pattern errors.  Each iteration consumes at least one
chunk character, so `fuel = chunk length` suffices. -/
def matchChunkLoopF : Nat → List Char → List Char → Bool → Option (Option (List Char))
  | _, [], s, failed => if failed then some none else some (some s)
  | 0, _, _, _ => none
  | fuel+1, c :: cs, s, failed0 =>
    let failed := failed0 || s.isEmpty
    if c = '[' then
      -- character class; when already failed, the class is parsed with a
      -- zero character and without consuming the name, as in Go
      let r := if failed then Char.ofNat 0 else s.headD (Char.ofNat 0)
      let s1 := if failed then s else s.tail
      let negated := decide (cs.head? = some '^')
      let cs1 := if negated then cs.tail else cs
      match matchRangesF (cs1.length + 1) r false 0 cs1 with
      | none => none
      | some (m, cs2) => matchChunkLoopF fuel cs2 s1 (failed || decide (m = negated))
    else if c = '?' then
      if failed then matchChunkLoopF fuel cs s failed
      else matchChunkLoopF fuel cs s.tail (decide (s.head? = some '/'))
    else if c = '\\' then
      match cs with
      | [] => none
      | d :: ds =>
        -- fallthrough: the escaped character is matched literally
        if failed then matchChunkLoopF fuel ds s failed
        else matchChunkLoopF fuel ds s.tail (decide (s.head? ≠ some d))
    else
      if failed then matchChunkLoopF fuel cs s failed
      else matchChunkLoopF fuel cs s.tail (decide (s.head? ≠ some c))

/-- Go `matchChunk` with its provably sufficient fuel. -/
def matchChunk (chunk s : List Char) : Option (Option (List Char)) :=
  matchChunkLoopF (chunk.length + 1) chunk s false

/-- The inner search loop of the star case of Go `Match`: look for a
chunk match skipping one more name character each time, never past a
separator; `k` is the continuation matching the remaining pattern. -/
def starSearch (mc : List Char → Option (Option (List Char)))
    (restIsEmpty : Bool) (k : List Char → Bool) : List Char → Bool
  | [] => false
  | c :: cs =>
    if c = '/' then false
    else
      match mc cs with
      | some (some t) =>
        if restIsEmpty ∧ t ≠ [] then starSearch mc restIsEmpty k cs else k t
      | some none => starSearch mc restIsEmpty k cs
      | none => false

/-- The `Pattern` loop of Go `Match`.  Each re-entry shrinks the
pattern (`scanChunk` consumes at least one character when it yields a
star or a nonempty chunk), so `fuel = pattern length` suffices and the
fuel-exhaustion branch is unreachable from `goMatchStr`. -/
def goMatchFuel : Nat → List Char → List Char → Bool
  | _, [], name => name = []
  | 0, _, _ => false
  | fuel+1, p@(_ :: _), name =>
    let scr := scanChunk p
    let star := scr.1
    let chunk := scr.2.1
    let rest := scr.2.2
    if star ∧ chunk = [] then
      -- trailing `*` matches the rest of the name unless it has a `/`
      ¬ name.any (fun x => x = '/')
    else
      match matchChunk chunk name with
      | some (some t) =>
        if t = [] ∨ rest ≠ [] then goMatchFuel fuel rest t
        else if star then
          starSearch (matchChunk chunk) (decide (rest = []))
            (fun u => goMatchFuel fuel rest u) name
        else false
      | some none =>
        if star then
          starSearch (matchChunk chunk) (decide (rest = []))
            (fun u => goMatchFuel fuel rest u) name
        else false
      | none => false

/-- Go `path/filepath.Match(pattern, name)` with the error discarded, as
at the call sites in `fileHidden` (on every error return the matched
result is `false`). -/
def goMatchStr (pattern name : String) : Bool :=
  goMatchFuel (pattern.length + 1) pattern.data name.data

/-!
Remaining Go standard-library helpers used by fileserver.go.
-/

/-- Go `path.Base`: strip trailing slashes, then keep everything after
the last slash; `""` gives `.` and an all-slash path gives `/`. -/
def goPathBase (path : String) : String :=
  if path = "" then "."
  else
    let stripped := (path.data.reverse.dropWhile (fun c => c = '/')).reverse
    if stripped = [] then "/"
    else ⟨(stripped.reverse.takeWhile (fun c => c ≠ '/')).reverse⟩

/-- Go `strings.TrimRight(p, ". ")`: remove trailing dots and spaces. -/
def goTrimRightDotSpace (s : String) : String :=
  ⟨(s.data.reverse.dropWhile (fun c => c = '.' ∨ c = ' ')).reverse⟩

/-- Go `path/filepath.IsAbs` (unix). -/
def goIsAbs (p : String) : Bool :=
  goStartsWith p "/"

/-- Go `path/filepath.Abs` (unix): clean an absolute path, otherwise
join it onto the working directory.  The Go original can fail only when
the working directory cannot be determined; the working directory is a
parameter here, so the failure branch (which would leave the input
unchanged) cannot occur. -/
def goAbs (cwd p : String) : String :=
  if goIsAbs p then goPathClean p else goFilepathJoin cwd p

/-- Digit character of `strconv.FormatInt` base 36 (lower-case). -/
def natDigit36 (n : Nat) : Char :=
  if n < 10 then Char.ofNat (48 + n) else Char.ofNat (97 + n - 10)

/-- The digit loop of Go `strconv.FormatInt` for base 36, little-endian
into an accumulator.  Every iteration divides `n` by 36, so
`fuel = n` suffices (`n / 36 < n` for `n ≥ 36`). -/
def formatNat36Aux : Nat → Nat → List Char → List Char
  | 0, _, acc => acc
  | fuel+1, n, acc =>
    if n < 36 then natDigit36 n :: acc
    else formatNat36Aux fuel (n / 36) (natDigit36 (n % 36) :: acc)

/-- Base-36 rendering of a natural number, as Go `strconv.FormatUint`. -/
def formatNat36 (n : Nat) : String :=
  ⟨formatNat36Aux (n + 1) n []⟩

/-- Go `strconv.FormatInt(x, 36)`: minus sign followed by the base-36
magnitude for negative inputs. -/
def formatInt36 : Int → String
  | Int.ofNat n => formatNat36 n
  | Int.negSucc m => "-" ++ formatNat36 (m + 1)

/-!
The fileserver model (src/fileserver/fileserver.go).  The pluggable
`fs.FS` is a pair of stat/open functions; errors are the closed
classification the handler observes through `errors.Is` /
`os.IsNotExist` (`notExist` ~ `fs.ErrNotExist`, `permission` ~
`fs.ErrPermission`, `invalid` ~ `fs.ErrInvalid`, `other` ~ anything
else, e.g. ENOTDIR).  The per-request template replacer
(`util.NewReplacer`, whose source is outside the repository snapshot)
is injected as an opaque function `repl2 input default`.
-/

/-- Classification of filesystem errors as the handler observes them. -/
inductive FsErr where
  | notExist : FsErr
  | permission : FsErr
  | invalid : FsErr
  | other : String → FsErr
deriving DecidableEq

/-- The `fs.FileInfo` fields the handler reads: directory flag,
modification time (unix seconds) and size. -/
structure GoFileInfo where
  isDir : Bool
  modTime : Int
  size : Int
deriving DecidableEq

/-- The pluggable filesystem: `stat` and the outcome of `Open`. -/
structure FS where
  stat : String → Except FsErr GoFileInfo
  openRes : String → Except FsErr Unit

/-- Configuration fields of `Spec` consumed by `handle`. -/
structure FSSpec where
  root : String
  hide : List String
  indexNames : List String

/-- `calculateEtag` from fileserver.go: quote the base-36 renderings of
the unix modification time and the size, concatenated. -/
def calculateEtag (d : GoFileInfo) : String :=
  "\"" ++ formatInt36 d.modTime ++ formatInt36 d.size ++ "\""

/-- The per-pattern loop body of `fileHidden` (fileserver.go lines
328-357): a separator-free pattern is glob-matched against every path
component (the Go original computes the component split lazily, once
across such patterns — same value every time, so it is recomputed
here); a separator-containing pattern that prefixes the filename hides
it when the remainder starts with a separator; and in the general case
a whole-path glob match suffices. -/
def fileHiddenLoop (filename : String) : List String → Bool
  | [] => false
  | h :: rest =>
    if ¬ strHas h '/' then
      if (goSplitSep filename).any (fun c => goMatchStr h c) then true
      else if goMatchStr h filename then true
      else fileHiddenLoop filename rest
    else if goStartsWith filename h ∧ goStartsWith (strDrop filename h.length) "/" then true
    else if goMatchStr h filename then true
    else fileHiddenLoop filename rest

/-- `fileHidden` from fileserver.go: empty hide list is never hidden;
otherwise compare against the absolutized filename. -/
def fileHidden (cwd filename : String) (hide : List String) : Bool :=
  if hide = [] then false
  else fileHiddenLoop (goAbs cwd filename) hide

/-- `transformHidePaths` from fileserver.go: run the replacer over each
configured pattern and absolutize those containing a separator. -/
def transformHidePaths (cwd : String) (repl2 : String → String → String)
    (hide : List String) : List String :=
  hide.map (fun h0 =>
    let h := repl2 h0 ""
    if strHas h '/' then goAbs cwd h else h)

/-- The prefix walk of `mapDirOpenError`: stat each growing prefix of
the split path (skipping empty parts); a stat failure returns the
original error, a non-directory prefix returns `notExist`, and an
exhausted walk returns the original error. -/
def mapDirWalk (fs : FS) (originalErr : FsErr) : List String → List String → FsErr
  | _, [] => originalErr
  | acc, part :: rest =>
    let acc2 := acc ++ [part]
    if part = "" then mapDirWalk fs originalErr acc2 rest
    else
      match fs.stat (joinSep acc2) with
      | Except.error _ => originalErr
      | Except.ok fi =>
        if fi.isDir = false then FsErr.notExist
        else mapDirWalk fs originalErr acc2 rest

/-- `mapDirOpenError` from fileserver.go: pass through not-found and
permission errors, otherwise reclassify via the prefix walk. -/
def mapDirOpenError (fs : FS) (originalErr : FsErr) (name : String) : FsErr :=
  if originalErr = FsErr.notExist ∨ originalErr = FsErr.permission then originalErr
  else mapDirWalk fs originalErr [] (goSplitSep name)

/-- Outcome of the ObfuscationGuard (fileserver.go lines 123-137). -/
inductive GuardOutcome where
  | accept : GuardOutcome
  | rejectADS : GuardOutcome
  | rejectShortName : GuardOutcome
deriving DecidableEq

/-- The platform guard at the top of `handle`: on windows, reject paths
containing a colon (alternate data streams), then paths whose trimmed
final component is at most 12 characters while the trimmed path
contains a tilde (legacy 8.3 short names). -/
def obfuscationGuard (goos p : String) : GuardOutcome :=
  if goos = "windows" then
    if strHas p ':' then GuardOutcome.rejectADS
    else
      let trimmedPath := goTrimRightDotSpace p
      if (goPathBase trimmedPath).length ≤ 12 ∧ strHas trimmedPath '~' then
        GuardOutcome.rejectShortName
      else GuardOutcome.accept
  else GuardOutcome.accept

/-- The index-file loop of `handle` (fileserver.go lines 171-199): for
each configured index name (after replacement), join it onto the
directory, skip it if hidden or if stat fails, and adopt the first
surviving candidate's info and path. -/
def indexLoop (cwd : String) (repl2 : String → String → String) (fs : FS)
    (filesToHide : List String) (dirFilename : String) (dirInfo : GoFileInfo) :
    List String → GoFileInfo × String
  | [] => (dirInfo, dirFilename)
  | indexPage :: rest =>
    let ip := repl2 indexPage ""
    let indexPath := SanitizedPathJoin dirFilename ip
    if fileHidden cwd indexPath filesToHide then
      indexLoop cwd repl2 fs filesToHide dirFilename dirInfo rest
    else
      match fs.stat indexPath with
      | Except.error _ => indexLoop cwd repl2 fs filesToHide dirFilename dirInfo rest
      | Except.ok indexInfo => (indexInfo, indexPath)

/-- Observable outcome of one `handle` call: the filter result string,
the status code set on the response (none when delegated to
`ServeContent`), the `Allow` and `Etag` headers, the trace of `Open`
calls issued to the filesystem, and the file served on success. -/
structure HandleOut where
  result : String
  status : Option Nat
  allow : Option String
  etag : Option String
  opened : List String
  served : Option String
deriving DecidableEq

/-- `handle` from fileserver.go, lines 118-290: guard, hide-list
transformation, sanitized join, stat (with error mapping), index
resolution for directories, the final hidden check, open (with error
mapping), and the method check, producing the response metadata. -/
def handle (goos cwd : String) (repl2 : String → String → String)
    (sp : FSSpec) (fs : FS) (method p : String) : HandleOut :=
  match obfuscationGuard goos p with
  | GuardOutcome.rejectADS =>
    ⟨"illegalADSPath", some 400, none, none, [], none⟩
  | GuardOutcome.rejectShortName =>
    ⟨"illegalShortName", some 400, none, none, [], none⟩
  | GuardOutcome.accept =>
    let filesToHide := transformHidePaths cwd repl2 sp.hide
    let root := repl2 sp.root "."
    let filename := SanitizedPathJoin root p
    match fs.stat filename with
    | Except.error e0 =>
      let e := mapDirOpenError fs e0 filename
      if e = FsErr.notExist ∨ e = FsErr.invalid then
        ⟨"notFound", some 404, none, none, [], none⟩
      else if e = FsErr.permission then
        ⟨"errPermission", some 403, none, none, [], none⟩
      else ⟨"errHandleFile", some 500, none, none, [], none⟩
    | Except.ok info0 =>
      let st :=
        if info0.isDir ∧ sp.indexNames ≠ [] then
          indexLoop cwd repl2 fs filesToHide filename info0 sp.indexNames
        else (info0, filename)
      let info := st.1
      let filename := st.2
      if info.isDir then ⟨"notFound", some 404, none, none, [], none⟩
      else if fileHidden cwd filename filesToHide then
        ⟨"notFound", some 404, none, none, [], none⟩
      else
        match fs.openRes filename with
        | Except.error e0 =>
          let e := mapDirOpenError fs e0 filename
          if e = FsErr.notExist then ⟨"notFound", some 404, none, none, [filename], none⟩
          else if e = FsErr.permission then
            ⟨"errPermission", some 403, none, none, [filename], none⟩
          else ⟨"errHandleFile", some 500, none, none, [filename], none⟩
        | Except.ok _ =>
          let etag := calculateEtag info
          if method ≠ "GET" ∧ method ≠ "HEAD" then
            ⟨"methodNotAllowed", some 405, some "GET, HEAD", none, [filename], none⟩
          else
            ⟨"", none, none, some etag, [filename], some filename⟩

/-- One pattern's verdict inside `fileHiddenLoop`, as a single boolean:
component-wise glob for separator-free patterns, prefix-with-separator
for the rest, with the whole-path glob as general fallback. -/
def patternHit (f h : String) : Bool :=
  if ¬ strHas h '/' then
    ((goSplitSep f).any (fun c => goMatchStr h c) || goMatchStr h f)
  else
    ((goStartsWith f h && goStartsWith (strDrop f h.length) "/") || goMatchStr h f)

/-- A candidate index name survives the loop in `handle` when it is not
hidden and its stat succeeds. -/
def indexCandidateOk (cwd : String) (repl2 : String → String → String) (fs : FS)
    (filesToHide : List String) (dirFilename : String) (n : String) : Bool :=
  let indexPath := SanitizedPathJoin dirFilename (repl2 n "")
  !fileHidden cwd indexPath filesToHide &&
    (match fs.stat indexPath with
     | Except.ok _ => true
     | Except.error _ => false)

/-- Concrete filesystem: `/site` is a directory holding only
`index.txt`; every open succeeds. -/
def fsSite : FS :=
  { stat := fun n =>
      if n = "/site" then Except.ok ⟨true, 0, 0⟩
      else if n = "/site/index.txt" then Except.ok ⟨false, 5, 7⟩
      else Except.error FsErr.notExist
    openRes := fun _ => Except.ok () }

/-- Concrete filesystem on which every stat fails with not-found. -/
def fsEmpty : FS :=
  { stat := fun _ => Except.error FsErr.notExist
    openRes := fun _ => Except.error FsErr.notExist }

/-- Concrete filesystem for the ENOTDIR scenario: `/root` is a
directory, `/root/file.txt` a regular file, and any deeper path fails
with an unclassified error. -/
def fsNotDir : FS :=
  { stat := fun n =>
      if n = "/root" then Except.ok ⟨true, 0, 0⟩
      else if n = "/root/file.txt" then Except.ok ⟨false, 3, 9⟩
      else Except.error (FsErr.other "ENOTDIR")
    openRes := fun _ => Except.error (FsErr.other "ENOTDIR") }

/-- An ordinary path element: nonempty, separator-free, and neither of
the special elements `.` and `..`.  A cleaned rooted path consists of
such elements only — in particular no `..` survives cleaning. -/
def ValidSeg (s : List Char) : Prop :=
  s ≠ [] ∧ (∀ x ∈ s, x ≠ '/') ∧ s ≠ ['.'] ∧ s ≠ ['.', '.']

/-- Interleave path elements with the separator. -/
def interSegs : List (List Char) → List Char
  | [] => []
  | [s] => s
  | s :: ss => s ++ '/' :: interSegs ss

/-!
Supporting lemmas.
-/

/-- `fileHiddenLoop` is the disjunction of the per-pattern verdicts. -/
theorem fileHiddenLoop_eq_any (f : String) (l : List String) :
    fileHiddenLoop f l = l.any (patternHit f) := by
  induction l with
  | nil => rfl
  | cons h rest ih =>
    unfold fileHiddenLoop
    simp only [List.any_cons, ← ih, patternHit]
    by_cases hs : strHas h '/'
    · simp only [hs, not_true_eq_false, if_false]
      by_cases ha : goStartsWith f h = true <;>
        by_cases hb : goStartsWith (strDrop f h.length) "/" = true <;>
          by_cases h2 : goMatchStr h f = true <;>
            simp [ha, hb, h2]
    · simp only [hs, not_false_eq_true, if_true]
      by_cases h1 : (goSplitSep f).any (fun c => goMatchStr h c) = true <;>
        by_cases h2 : goMatchStr h f = true <;>
          simp [h1, h2]

/-!
Claim theorems: hidden-path matching (C6, C7, C10) and the
short-name guard (C2).
-/

/-- C7: `fileHidden` is monotone in the hide list: the empty hide list
hides nothing, and enlarging the hide list never un-hides a path. -/
theorem c7_fileHidden_monotone (cwd p : String) :
    fileHidden cwd p [] = false ∧
    ∀ h1 h2 : List String, (∀ x ∈ h1, x ∈ h2) →
      fileHidden cwd p h1 = true → fileHidden cwd p h2 = true := by
  refine ⟨rfl, ?_⟩
  intro h1 h2 hsub hhid
  unfold fileHidden at hhid ⊢
  by_cases h1nil : h1 = []
  · rw [if_pos h1nil] at hhid; exact absurd hhid (by simp)
  · rw [if_neg h1nil, fileHiddenLoop_eq_any] at hhid
    rcases List.any_eq_true.mp hhid with ⟨x, hx, hpx⟩
    have hx2 : x ∈ h2 := hsub x hx
    rw [if_neg (List.ne_nil_of_mem hx2), fileHiddenLoop_eq_any]
    exact List.any_eq_true.mpr ⟨x, hx2, hpx⟩

/-- Witness for C7 at a concrete input. -/
theorem c7_fileHidden_monotone_witness :
    fileHidden "/" "/bar" ["baz", "bar"] = true :=
  (c7_fileHidden_monotone "/" "/bar").2 ["bar"] ["baz", "bar"]
    (by decide) (by decide)

/-- C6: the matching rules of `fileHidden`.  A separator-free pattern is
glob-matched against every component of the absolutized path (with the
whole-path glob as the documented fallback); a separator-containing
pattern hides a path it prefixes exactly when the remainder begins with
a separator, again with the whole-path glob fallback (which covers the
prefix consuming the whole path); the examples of the claim hold. -/
theorem c6_fileHidden_rules (cwd h p : String) :
    (strHas h '/' = false →
      fileHidden cwd p [h] =
        ((goSplitSep (goAbs cwd p)).any (fun c => goMatchStr h c) ||
          goMatchStr h (goAbs cwd p))) ∧
    (strHas h '/' = true →
      fileHidden cwd p [h] =
        ((goStartsWith (goAbs cwd p) h &&
            goStartsWith (strDrop (goAbs cwd p) h.length) "/") ||
          goMatchStr h (goAbs cwd p))) ∧
    fileHidden "/" "/x/bar/y" ["bar"] = true ∧
    fileHidden "/" "/bar" ["bar"] = true ∧
    fileHidden "/" "/barstool" ["bar"] = false ∧
    fileHidden "/" "/foo" ["/foo"] = true ∧
    fileHidden "/" "/foo/bar" ["/foo"] = true ∧
    fileHidden "/" "/foobar" ["/foo"] = false := by
  refine ⟨?_, ?_, by decide, by decide, by decide, by decide, by decide, by decide⟩
  · intro hs
    unfold fileHidden
    rw [if_neg (by simp : ([h] : List String) ≠ []), fileHiddenLoop_eq_any]
    simp [patternHit, hs]
  · intro hs
    unfold fileHidden
    rw [if_neg (by simp : ([h] : List String) ≠ []), fileHiddenLoop_eq_any]
    simp [patternHit, hs]

/-- Witness for C6 at a concrete input. -/
theorem c6_fileHidden_rules_witness :
    fileHidden "/" "/x/bar/y" ["bar"] =
      ((goSplitSep (goAbs "/" "/x/bar/y")).any (fun c => goMatchStr "bar" c) ||
        goMatchStr "bar" (goAbs "/" "/x/bar/y")) :=
  (c6_fileHidden_rules "/" "bar" "/x/bar/y").1 (by decide)

/-- C10: separator-containing hide patterns are absolutized against the
process working directory (not the configured root), as is the filename
inside `fileHidden`; the relative pattern `./secret` therefore hides
`cwd/secret` and not `root/secret`. -/
theorem c10_hide_patterns_cwd_relative (cwd : String)
    (repl2 : String → String → String) (hide : List String) :
    transformHidePaths cwd repl2 hide =
      hide.map (fun h0 =>
        let h := repl2 h0 ""
        if strHas h '/' then
          (if goIsAbs h then goPathClean h else goFilepathJoin cwd h)
        else h) ∧
    (∀ f : String, hide ≠ [] →
      fileHidden cwd f hide = fileHiddenLoop (goAbs cwd f) hide) ∧
    transformHidePaths "/work" (fun s _ => s) ["./secret"] = ["/work/secret"] ∧
    fileHidden "/work" "/work/secret"
      (transformHidePaths "/work" (fun s _ => s) ["./secret"]) = true ∧
    fileHidden "/work" "/site/secret"
      (transformHidePaths "/work" (fun s _ => s) ["./secret"]) = false := by
  refine ⟨?_, ?_, by decide, by decide, by decide⟩
  · simp [transformHidePaths, goAbs]
  · intro f hne
    simp [fileHidden, hne]

/-- Witness for C10 at a concrete input. -/
theorem c10_hide_patterns_cwd_relative_witness :
    fileHidden "/work" "/f" ["./secret"] =
      fileHiddenLoop (goAbs "/work" "/f") ["./secret"] :=
  (c10_hide_patterns_cwd_relative "/work" (fun s _ => s) ["./secret"]).2.1
    "/f" (by decide)

/-- C2 counterexample: on windows the request `/a~/c` is rejected as an
illegal short name although its trimmed final path component `c`
contains no tilde — the code looks for the tilde anywhere in the
trimmed path, not in the final component. -/
theorem c2_short_name_counterexample :
    obfuscationGuard "windows" "/a~/c" = GuardOutcome.rejectShortName ∧
    strHas (goPathBase (goTrimRightDotSpace "/a~/c")) '~' = false := by
  decide

/-- C2 amended: on the windows platform the guard rejects a path as an
illegal short name exactly when the path contains no colon (otherwise
the ADS rejection fires first), the final component of the
dot/space-trimmed path is at most 12 characters, and the trimmed path
contains a tilde anywhere; on any other platform the guard accepts
every path. -/
theorem c2_short_name_amended (goos p : String) :
    (obfuscationGuard goos p = GuardOutcome.rejectShortName ↔
      (goos = "windows" ∧ strHas p ':' = false ∧
        (goPathBase (goTrimRightDotSpace p)).length ≤ 12 ∧
        strHas (goTrimRightDotSpace p) '~' = true)) ∧
    (goos ≠ "windows" → obfuscationGuard goos p = GuardOutcome.accept) := by
  unfold obfuscationGuard
  by_cases hg : goos = "windows"
  · by_cases hc : strHas p ':' = true
    · simp [hg, hc]
    · by_cases hl : (goPathBase (goTrimRightDotSpace p)).length ≤ 12 <;>
        by_cases ht : strHas (goTrimRightDotSpace p) '~' = true <;>
          simp [hg, hc, hl, ht]
  · simp [hg]

/-- Witness for C2 (amended) at a concrete input. -/
theorem c2_short_name_amended_witness :
    obfuscationGuard "linux" "/a~" = GuardOutcome.accept :=
  (c2_short_name_amended "linux" "/a~").2 (by decide)

/-!
Claim theorems: error classification (C8) and index resolution (C9).
-/

/-- The walk of `mapDirOpenError` only ever returns the original error
or not-found. -/
theorem mapDirWalk_cases (fs : FS) (e : FsErr) (parts : List String) :
    ∀ acc, mapDirWalk fs e acc parts = e ∨ mapDirWalk fs e acc parts = FsErr.notExist := by
  induction parts with
  | nil => intro acc; left; rfl
  | cons part rest ih =>
    intro acc
    unfold mapDirWalk
    by_cases hp : part = ""
    · rw [if_pos hp]; exact ih _
    · rw [if_neg hp]
      cases hstat : fs.stat (joinSep (acc ++ [part])) with
      | error _ => left; rfl
      | ok fi =>
        by_cases hd : fi.isDir = false
        · right; simp [hd]
        · simpa [hd] using ih (acc ++ [part])

/-- If every successful stat of the filesystem yields a directory, the
walk cannot reproduce the failure and returns the original error. -/
theorem mapDirWalk_all_dirs (fs : FS) (e : FsErr)
    (hfs : ∀ s fi, fs.stat s = Except.ok fi → fi.isDir = true) (parts : List String) :
    ∀ acc, mapDirWalk fs e acc parts = e := by
  induction parts with
  | nil => intro acc; rfl
  | cons part rest ih =>
    intro acc
    unfold mapDirWalk
    by_cases hp : part = ""
    · rw [if_pos hp]; exact ih _
    · rw [if_neg hp]
      cases hstat : fs.stat (joinSep (acc ++ [part])) with
      | error _ => rfl
      | ok fi =>
        have hd : fi.isDir = true := hfs _ _ hstat
        simpa [hd] using ih (acc ++ [part])

/-- C8: `mapDirOpenError` passes not-found and permission errors
through unchanged; any other error is either returned unchanged or
reclassified as not-found; when no successful stat yields a
non-directory the original error is returned unchanged; and in the
concrete ENOTDIR scenario (an intermediate segment of
`/root/file.txt/sub` is a regular file) the error is reclassified as
not-found, so the whole request yields notFound/404 rather than an
internal error. -/
theorem c8_mapDirOpenError (fs : FS) (e : FsErr) (name : String) :
    (e = FsErr.notExist ∨ e = FsErr.permission → mapDirOpenError fs e name = e) ∧
    (mapDirOpenError fs e name = e ∨ mapDirOpenError fs e name = FsErr.notExist) ∧
    ((∀ s fi, fs.stat s = Except.ok fi → fi.isDir = true) →
      mapDirOpenError fs e name = e) ∧
    mapDirOpenError fsNotDir (FsErr.other "ENOTDIR") "/root/file.txt/sub" =
      FsErr.notExist ∧
    handle "linux" "/" (fun s _ => s) ⟨"/root", [], []⟩ fsNotDir "GET" "/file.txt/sub" =
      ⟨"notFound", some 404, none, none, [], none⟩ := by
  refine ⟨?_, ?_, ?_, by decide, by decide⟩
  · intro he
    unfold mapDirOpenError
    rw [if_pos he]
  · unfold mapDirOpenError
    by_cases he : e = FsErr.notExist ∨ e = FsErr.permission
    · rw [if_pos he]; left; rfl
    · rw [if_neg he]; exact mapDirWalk_cases fs e _ _
  · intro hfs
    unfold mapDirOpenError
    by_cases he : e = FsErr.notExist ∨ e = FsErr.permission
    · rw [if_pos he]
    · rw [if_neg he]; exact mapDirWalk_all_dirs fs e hfs _ _

/-- Witness for C8 at a concrete input. -/
theorem c8_mapDirOpenError_witness :
    mapDirOpenError fsEmpty (FsErr.other "EIO") "/a/b" = FsErr.other "EIO" :=
  (c8_mapDirOpenError fsEmpty (FsErr.other "EIO") "/a/b").2.2.1
    (by intro s fi h; exact absurd h (by simp [fsEmpty]))

/-- The index loop adopts the first candidate that is neither hidden nor
missing, skipping the others; when no candidate qualifies it keeps the
directory's own info and path. -/
theorem indexLoop_first (cwd : String) (repl2 : String → String → String) (fs : FS)
    (hide : List String) (dirname : String) (dirInfo : GoFileInfo) (names : List String) :
    (names.find? (indexCandidateOk cwd repl2 fs hide dirname) = none →
      indexLoop cwd repl2 fs hide dirname dirInfo names = (dirInfo, dirname)) ∧
    (∀ n, names.find? (indexCandidateOk cwd repl2 fs hide dirname) = some n →
      ∃ fi, fs.stat (SanitizedPathJoin dirname (repl2 n "")) = Except.ok fi ∧
        indexLoop cwd repl2 fs hide dirname dirInfo names
          = (fi, SanitizedPathJoin dirname (repl2 n ""))) := by
  induction names with
  | nil => exact ⟨fun _ => rfl, fun n h => by simp at h⟩
  | cons m rest ih =>
    by_cases hm : indexCandidateOk cwd repl2 fs hide dirname m = true
    · have hm2 := hm
      unfold indexCandidateOk at hm2
      rw [Bool.and_eq_true] at hm2
      obtain ⟨hhid, hst⟩ := hm2
      have hhid2 : fileHidden cwd (SanitizedPathJoin dirname (repl2 m "")) hide = false := by
        simpa using hhid
      cases hstat : fs.stat (SanitizedPathJoin dirname (repl2 m "")) with
      | error err => rw [hstat] at hst; simp at hst
      | ok fi =>
        refine ⟨?_, ?_⟩
        · intro hnone
          rw [List.find?_cons_of_pos _ hm] at hnone
          simp at hnone
        · intro n hn
          rw [List.find?_cons_of_pos _ hm] at hn
          have hnm : n = m := by simpa using hn.symm
          subst hnm
          refine ⟨fi, hstat, ?_⟩
          unfold indexLoop
          simp [hhid2, hstat]
    · have hskip : indexLoop cwd repl2 fs hide dirname dirInfo (m :: rest)
          = indexLoop cwd repl2 fs hide dirname dirInfo rest := by
        by_cases hh : fileHidden cwd (SanitizedPathJoin dirname (repl2 m "")) hide = true
        · conv_lhs => rw [indexLoop]
          simp [hh]
        · cases hstat : fs.stat (SanitizedPathJoin dirname (repl2 m "")) with
          | error err =>
            conv_lhs => rw [indexLoop]
            simp [hh, hstat]
          | ok fi =>
            exfalso
            apply hm
            unfold indexCandidateOk
            simp only [Bool.not_eq_true] at hh
            simp [hh, hstat]
      refine ⟨?_, ?_⟩
      · intro hnone
        rw [List.find?_cons_of_neg _ hm] at hnone
        rw [hskip]
        exact ih.1 hnone
      · intro n hn
        rw [List.find?_cons_of_neg _ hm] at hn
        rw [hskip]
        exact ih.2 n hn

/-- C9: the directory index selection.  The loop adopts the FIRST
candidate in `IndexNames` order that is neither hidden nor missing
(hidden or missing candidates are skipped and the next is tried), and
when every candidate is hidden or missing the handler answers
notFound with status 404 for a directory request. -/
theorem c9_index_selection :
    (∀ (cwd : String) (repl2 : String → String → String) (fs : FS)
        (hide : List String) (dirname : String) (dirInfo : GoFileInfo)
        (names : List String),
      (names.find? (indexCandidateOk cwd repl2 fs hide dirname) = none →
        indexLoop cwd repl2 fs hide dirname dirInfo names = (dirInfo, dirname)) ∧
      (∀ n, names.find? (indexCandidateOk cwd repl2 fs hide dirname) = some n →
        ∃ fi, fs.stat (SanitizedPathJoin dirname (repl2 n "")) = Except.ok fi ∧
          indexLoop cwd repl2 fs hide dirname dirInfo names
            = (fi, SanitizedPathJoin dirname (repl2 n "")))) ∧
    (∀ (cwd : String) (repl2 : String → String → String) (sp : FSSpec) (fs : FS)
        (method p : String) (dirInfo : GoFileInfo),
      fs.stat (SanitizedPathJoin (repl2 sp.root ".") p) = Except.ok dirInfo →
      dirInfo.isDir = true →
      (∀ n ∈ sp.indexNames,
        indexCandidateOk cwd repl2 fs (transformHidePaths cwd repl2 sp.hide)
          (SanitizedPathJoin (repl2 sp.root ".") p) n = false) →
      handle "linux" cwd repl2 sp fs method p
        = ⟨"notFound", some 404, none, none, [], none⟩) := by
  refine ⟨fun cwd repl2 fs hide dirname dirInfo names =>
    indexLoop_first cwd repl2 fs hide dirname dirInfo names, ?_⟩
  intro cwd repl2 sp fs method p dirInfo hstat hdir hall
  have hfind : sp.indexNames.find? (indexCandidateOk cwd repl2 fs
      (transformHidePaths cwd repl2 sp.hide)
      (SanitizedPathJoin (repl2 sp.root ".") p)) = none :=
    List.find?_eq_none.mpr (by intro x hx; simp [hall x hx])
  have hloop := (indexLoop_first cwd repl2 fs (transformHidePaths cwd repl2 sp.hide)
      (SanitizedPathJoin (repl2 sp.root ".") p) dirInfo sp.indexNames).1 hfind
  unfold handle
  have hacc : obfuscationGuard "linux" p = GuardOutcome.accept := by
    unfold obfuscationGuard
    simp
  simp only [hacc, hstat]
  by_cases hnames : sp.indexNames = []
  · simp [hnames, hdir]
  · simp [hnames, hdir, hloop]

/-- Witness for C9 at a concrete input: with `IndexNames =
[index.html, index.txt]` and only `/site/index.txt` on disk, the loop
selects `index.txt`. -/
theorem c9_index_selection_witness :
    ∃ fi, fsSite.stat (SanitizedPathJoin "/site" "index.txt") = Except.ok fi ∧
      indexLoop "/" (fun s _ => s) fsSite [] "/site" ⟨true, 0, 0⟩
          ["index.html", "index.txt"]
        = (fi, SanitizedPathJoin "/site" "index.txt") :=
  (c9_index_selection.1 "/" (fun s _ => s) fsSite [] "/site" ⟨true, 0, 0⟩
    ["index.html", "index.txt"]).2 "index.txt" (by decide)

/-!
Claim theorems: method check placement (C3).
-/

/-- C3 counterexample: a POST request for an existing file is answered
with methodNotAllowed, but the file HAS been opened (the open trace is
nonempty), and a POST request for a missing file is answered with
notFound rather than methodNotAllowed — the method check runs after
stat, hidden filtering and open, not before. -/
theorem c3_method_check_counterexample :
    (handle "linux" "/" (fun s _ => s) ⟨"/site", [], ["index.html", "index.txt"]⟩
        fsSite "POST" "/").result = "methodNotAllowed" ∧
    (handle "linux" "/" (fun s _ => s) ⟨"/site", [], ["index.html", "index.txt"]⟩
        fsSite "POST" "/").opened = ["/site/index.txt"] ∧
    (handle "linux" "/" (fun s _ => s) ⟨"/site", [], []⟩ fsEmpty "POST" "/x").result
      = "notFound" := by
  decide

/-- C3 amended: a request whose method is neither GET nor HEAD is
answered with methodNotAllowed and an `Allow: GET, HEAD` header only
once it reaches the serving stage — the path passed the guard and
resolved to an existing, non-hidden, non-directory file whose open
succeeded — and by that time the file has been opened (the open call
precedes the method check), so the open trace is nonempty. -/
theorem c3_method_check_amended (goos cwd : String)
    (repl2 : String → String → String) (sp : FSSpec) (fs : FS)
    (method p : String) (info : GoFileInfo)
    (hguard : obfuscationGuard goos p = GuardOutcome.accept)
    (hstat : fs.stat (SanitizedPathJoin (repl2 sp.root ".") p) = Except.ok info)
    (hdir : info.isDir = false)
    (hhid : fileHidden cwd (SanitizedPathJoin (repl2 sp.root ".") p)
        (transformHidePaths cwd repl2 sp.hide) = false)
    (hopen : fs.openRes (SanitizedPathJoin (repl2 sp.root ".") p) = Except.ok ())
    (hm1 : method ≠ "GET") (hm2 : method ≠ "HEAD") :
    handle goos cwd repl2 sp fs method p
      = ⟨"methodNotAllowed", some 405, some "GET, HEAD", none,
          [SanitizedPathJoin (repl2 sp.root ".") p], none⟩ ∧
    (handle goos cwd repl2 sp fs method p).opened ≠ [] := by
  have hmain : handle goos cwd repl2 sp fs method p
      = ⟨"methodNotAllowed", some 405, some "GET, HEAD", none,
          [SanitizedPathJoin (repl2 sp.root ".") p], none⟩ := by
    unfold handle
    simp [hguard, hstat, hdir, hhid, hopen, hm1, hm2]
  exact ⟨hmain, by rw [hmain]; simp⟩

/-- Witness for C3 (amended) at a concrete input. -/
theorem c3_method_check_amended_witness :
    handle "linux" "/" (fun s _ => s) ⟨"/site", [], []⟩ fsSite "POST" "/index.txt"
      = ⟨"methodNotAllowed", some 405, some "GET, HEAD", none,
          ["/site/index.txt"], none⟩ :=
  (c3_method_check_amended "linux" "/" (fun s _ => s) ⟨"/site", [], []⟩ fsSite
    "POST" "/index.txt" ⟨false, 5, 7⟩ (by decide) rfl rfl (by decide)
    rfl (by decide) (by decide)).1

/-!
Claim theorems: the ETag (C4).  `strconv.FormatInt(_, 36)` is injective,
so with either of (modTime, size) fixed, changing the other changes the
ETag; the two fields together do not injectively determine the ETag
(the concatenation has no separator), but the claim only varies one
field at a time.
-/

/-- The digit accumulator distributes over list append. -/
theorem formatNat36Aux_acc (f : Nat) :
    ∀ n acc, formatNat36Aux f n acc = formatNat36Aux f n [] ++ acc := by
  induction f with
  | zero => intro n acc; rfl
  | succ f ih =>
    intro n acc
    unfold formatNat36Aux
    by_cases h : n < 36
    · rw [if_pos h, if_pos h]; rfl
    · rw [if_neg h, if_neg h, ih (n / 36) (natDigit36 (n % 36) :: acc),
        ih (n / 36) [natDigit36 (n % 36)]]
      simp

/-- Any fuel beyond the base-36 digit count gives the same rendering. -/
theorem formatNat36Aux_fuel (f : Nat) :
    ∀ g n acc, n < 36 ^ (f + 1) → n < 36 ^ (g + 1) →
      formatNat36Aux (f + 1) n acc = formatNat36Aux (g + 1) n acc := by
  induction f with
  | zero =>
    intro g n acc hf hg
    have h36 : n < 36 := by simpa using hf
    unfold formatNat36Aux
    rw [if_pos h36, if_pos h36]
  | succ f ih =>
    intro g n acc hf hg
    by_cases h36 : n < 36
    · unfold formatNat36Aux
      rw [if_pos h36, if_pos h36]
    · have hg1 : g ≠ 0 := by
        rintro rfl
        exact h36 (by simpa using hg)
      obtain ⟨g2, rfl⟩ := Nat.exists_eq_succ_of_ne_zero hg1
      unfold formatNat36Aux
      rw [if_neg h36, if_neg h36]
      apply ih
      · exact Nat.div_lt_of_lt_mul (by rw [← pow_succ']; exact hf)
      · exact Nat.div_lt_of_lt_mul (by rw [← pow_succ']; exact hg)

/-- The rendering is strictly longer than the accumulator. -/
theorem formatNat36Aux_len (f : Nat) :
    ∀ n acc, acc.length + 1 ≤ (formatNat36Aux (f + 1) n acc).length := by
  induction f with
  | zero =>
    intro n acc
    unfold formatNat36Aux
    by_cases h : n < 36
    · rw [if_pos h]; simp
    · rw [if_neg h]; unfold formatNat36Aux; simp
  | succ f ih =>
    intro n acc
    unfold formatNat36Aux
    by_cases h : n < 36
    · rw [if_pos h]; simp
    · rw [if_neg h]
      have := ih (n / 36) (natDigit36 (n % 36) :: acc)
      simp only [List.length_cons] at this
      omega

/-- Every character of the rendering is a base-36 digit character
(or comes from the accumulator). -/
theorem formatNat36Aux_chars (f : Nat) :
    ∀ n acc c, c ∈ formatNat36Aux f n acc →
      c ∈ acc ∨ ∃ k, k < 36 ∧ c = natDigit36 k := by
  induction f with
  | zero => intro n acc c hc; exact Or.inl hc
  | succ f ih =>
    intro n acc c hc
    unfold formatNat36Aux at hc
    by_cases h : n < 36
    · rw [if_pos h] at hc
      rcases List.mem_cons.mp hc with hc | hc
      · exact Or.inr ⟨n, h, hc⟩
      · exact Or.inl hc
    · rw [if_neg h] at hc
      rcases ih _ _ _ hc with hc | hc
      · rcases List.mem_cons.mp hc with hc | hc
        · exact Or.inr ⟨n % 36, Nat.mod_lt _ (by norm_num), hc⟩
        · exact Or.inl hc
      · exact Or.inr hc

/-- Base-36 rendering of naturals is injective. -/
theorem formatNat36_inj : ∀ m n : Nat, formatNat36 m = formatNat36 n → m = n := by
  have digit_inj : ∀ a, a < 36 → ∀ b, b < 36 → natDigit36 a = natDigit36 b → a = b := by
    decide
  intro m
  induction m using Nat.strong_induction_on with
  | _ m ih =>
    intro n h
    have hdata : formatNat36Aux (m + 1) m [] = formatNat36Aux (n + 1) n [] :=
      congrArg String.data h
    by_cases hm : m < 36
    · by_cases hn : n < 36
      · have : natDigit36 m = natDigit36 n := by
          unfold formatNat36Aux at hdata
          rw [if_pos hm, if_pos hn] at hdata
          simpa using hdata
        exact digit_inj m hm n hn this
      · exfalso
        have hgrow : n / 36 ≥ 0 := Nat.zero_le _
        have hlen : (formatNat36Aux (n + 1) n []).length ≥ 2 := by
          obtain ⟨n2, rfl⟩ := Nat.exists_eq_succ_of_ne_zero
            (by omega : n ≠ 0)
          unfold formatNat36Aux
          rw [if_neg hn]
          have := formatNat36Aux_len n2 ((n2 + 1) / 36) [natDigit36 ((n2 + 1) % 36)]
          simpa using this
        rw [← hdata] at hlen
        unfold formatNat36Aux at hlen
        rw [if_pos hm] at hlen
        simp at hlen
    · by_cases hn : n < 36
      · exfalso
        have hlen : (formatNat36Aux (m + 1) m []).length ≥ 2 := by
          obtain ⟨m2, rfl⟩ := Nat.exists_eq_succ_of_ne_zero
            (by omega : m ≠ 0)
          unfold formatNat36Aux
          rw [if_neg hm]
          have := formatNat36Aux_len m2 ((m2 + 1) / 36) [natDigit36 ((m2 + 1) % 36)]
          simpa using this
        rw [hdata] at hlen
        unfold formatNat36Aux at hlen
        rw [if_pos hn] at hlen
        simp at hlen
      · -- both at least 36: peel the last digit and recurse
        obtain ⟨m2, hm2⟩ := Nat.exists_eq_succ_of_ne_zero (by omega : m ≠ 0)
        obtain ⟨n2, hn2⟩ := Nat.exists_eq_succ_of_ne_zero (by omega : n ≠ 0)
        rw [hm2, hn2] at hdata
        unfold formatNat36Aux at hdata
        rw [if_neg (by omega : ¬ m2 + 1 < 36), if_neg (by omega : ¬ n2 + 1 < 36)] at hdata
        rw [formatNat36Aux_acc (m2 + 1) ((m2 + 1) / 36) [natDigit36 ((m2 + 1) % 36)],
          formatNat36Aux_acc (n2 + 1) ((n2 + 1) / 36) [natDigit36 ((n2 + 1) % 36)]] at hdata
        obtain ⟨hpre, hdig⟩ := List.append_inj' hdata rfl
        have hdig2 : (m2 + 1) % 36 = (n2 + 1) % 36 :=
          digit_inj _ (Nat.mod_lt _ (by norm_num)) _ (Nat.mod_lt _ (by norm_num))
            (by simpa using hdig)
        have hx : ∀ x : Nat, x < 36 ^ (x + 1) := fun x =>
          lt_of_lt_of_le (Nat.lt_pow_self (by norm_num) x)
            (Nat.pow_le_pow_right (by norm_num) (Nat.le_succ x))
        have hdivm : (m2 + 1) / 36 < 36 ^ (m2 + 1) :=
          lt_of_le_of_lt (Nat.div_le_self _ _) (Nat.lt_pow_self (by norm_num) _)
        have hdivn : (n2 + 1) / 36 < 36 ^ (n2 + 1) :=
          lt_of_le_of_lt (Nat.div_le_self _ _) (Nat.lt_pow_self (by norm_num) _)
        have hfm := formatNat36Aux_fuel m2 ((m2 + 1) / 36) ((m2 + 1) / 36) []
          hdivm (hx _)
        have hfn := formatNat36Aux_fuel n2 ((n2 + 1) / 36) ((n2 + 1) / 36) []
          hdivn (hx _)
        have hpre2 : formatNat36 ((m2 + 1) / 36) = formatNat36 ((n2 + 1) / 36) := by
          unfold formatNat36
          exact congrArg String.mk (by rw [← hfm, ← hfn]; exact hpre)
        have hdiv : (m2 + 1) / 36 = (n2 + 1) / 36 :=
          ih _ (by rw [hm2]; exact Nat.div_lt_self (by omega) (by norm_num)) _ hpre2
        have em := Nat.div_add_mod (m2 + 1) 36
        have en := Nat.div_add_mod (n2 + 1) 36
        omega

/-- The rendering of a natural number is a nonempty list of characters. -/
theorem formatNat36_data_ne_nil (n : Nat) : (formatNat36 n).data ≠ [] := by
  have h := formatNat36Aux_len n n []
  intro hc
  have hdef : (formatNat36 n).data = formatNat36Aux (n + 1) n [] := rfl
  rw [hdef] at hc
  rw [hc] at h
  simp at h

/-- No character of a natural-number rendering is a minus sign. -/
theorem formatNat36_no_dash (n : Nat) :
    ∀ c, c ∈ (formatNat36 n).data → c ≠ '-' := by
  intro c hc
  have hch := formatNat36Aux_chars (n + 1) n [] c hc
  rcases hch with h | ⟨k, hk, rfl⟩
  · simp at h
  · have hall : ∀ k, k < 36 → natDigit36 k ≠ '-' := by decide
    exact hall k hk

/-- `strconv.FormatInt(_, 36)` is injective. -/
theorem formatInt36_inj : ∀ x y : Int, formatInt36 x = formatInt36 y → x = y := by
  have hdashapp : ∀ s : String, ("-" ++ s).data = '-' :: s.data := fun s => rfl
  intro x y h
  cases x with
  | ofNat m =>
    cases y with
    | ofNat n =>
      simpa using formatNat36_inj m n (by simpa [formatInt36] using h)
    | negSucc k =>
      exfalso
      have hd : (formatNat36 m).data = '-' :: (formatNat36 (k + 1)).data := by
        have := congrArg String.data h
        simpa [formatInt36, hdashapp] using this
      exact formatNat36_no_dash m '-' (by rw [hd]; exact List.mem_cons_self _ _) rfl
  | negSucc m =>
    cases y with
    | ofNat n =>
      exfalso
      have hd : (formatNat36 n).data = '-' :: (formatNat36 (m + 1)).data := by
        have := (congrArg String.data h).symm
        simpa [formatInt36, hdashapp] using this
      exact formatNat36_no_dash n '-' (by rw [hd]; exact List.mem_cons_self _ _) rfl
    | negSucc n =>
      have hd : (formatNat36 (m + 1)).data = (formatNat36 (n + 1)).data := by
        have := congrArg String.data h
        simpa [formatInt36, hdashapp] using this
      have hsucc := formatNat36_inj (m + 1) (n + 1) (String.ext hd)
      have hmn : m = n := by omega
      rw [hmn]

/-- C4: the ETag is the quoted concatenation of the base-36 renderings
of the unix modification time and the size; equal (modTime, size) pairs
give equal ETags, and with one of the two fields fixed, changing the
other always changes the ETag. -/
theorem c4_etag_determined (d1 d2 : GoFileInfo) :
    calculateEtag d1 = "\"" ++ formatInt36 d1.modTime ++ formatInt36 d1.size ++ "\"" ∧
    (d1.modTime = d2.modTime ∧ d1.size = d2.size →
      calculateEtag d1 = calculateEtag d2) ∧
    (d1.modTime = d2.modTime → d1.size ≠ d2.size →
      calculateEtag d1 ≠ calculateEtag d2) ∧
    (d1.size = d2.size → d1.modTime ≠ d2.modTime →
      calculateEtag d1 ≠ calculateEtag d2) := by
  refine ⟨rfl, ?_, ?_, ?_⟩
  · rintro ⟨h1, h2⟩
    unfold calculateEtag
    rw [h1, h2]
  · intro h1 hne heq
    apply hne
    unfold calculateEtag at heq
    rw [h1] at heq
    have hd : ((['"'] ++ (formatInt36 d2.modTime).data) ++ (formatInt36 d1.size).data)
          ++ ['"']
        = ((['"'] ++ (formatInt36 d2.modTime).data) ++ (formatInt36 d2.size).data)
          ++ ['"'] :=
      congrArg String.data heq
    have hs := List.append_cancel_left (List.append_cancel_right hd)
    exact formatInt36_inj _ _ (String.ext hs)
  · intro h1 hne heq
    apply hne
    unfold calculateEtag at heq
    rw [h1] at heq
    have hd : ((['"'] ++ (formatInt36 d1.modTime).data) ++ (formatInt36 d2.size).data)
          ++ ['"']
        = ((['"'] ++ (formatInt36 d2.modTime).data) ++ (formatInt36 d2.size).data)
          ++ ['"'] :=
      congrArg String.data heq
    have ht := List.append_cancel_left
      (List.append_cancel_right (List.append_cancel_right hd))
    exact formatInt36_inj _ _ (String.ext ht)

/-- Witness for C4 at a concrete input. -/
theorem c4_etag_determined_witness :
    calculateEtag ⟨false, 5, 7⟩ ≠ calculateEtag ⟨false, 5, 8⟩ :=
  (c4_etag_determined ⟨false, 5, 7⟩ ⟨false, 5, 8⟩).2.2.1 rfl (by decide)

/-!
Lemmas about the `path.Clean` loop, for C1 and C5.
-/

/-- `dropWhile` never lengthens a list. -/
theorem dropWhile_len_le (p : Char → Bool) (l : List Char) :
    (l.dropWhile p).length ≤ l.length := by
  induction l with
  | nil => simp
  | cons c cs ih =>
    rw [List.dropWhile_cons]
    split
    · exact le_trans ih (by simp)
    · simp

/-- `interSegs` over a snoc: the last element is appended after a
separator. -/
theorem interSegs_concat (l : List (List Char)) (x : List Char) (hl : l ≠ []) :
    interSegs (l ++ [x]) = interSegs l ++ '/' :: x := by
  induction l with
  | nil => exact absurd rfl hl
  | cons s ss ih =>
    cases ss with
    | nil => rfl
    | cons t ts =>
      have h1 : interSegs ((s :: t :: ts) ++ [x]) = s ++ '/' :: interSegs ((t :: ts) ++ [x]) := rfl
      have h2 : interSegs (s :: t :: ts) = s ++ '/' :: interSegs (t :: ts) := rfl
      rw [h1, ih (by simp), h2]
      simp

/-- For a valid (nonempty) element list, `interSegs` is nonempty as soon
as the list is. -/
theorem interSegs_ne_nil (l : List (List Char)) (hl : l ≠ [])
    (hv : ∀ s ∈ l, ValidSeg s) : interSegs l ≠ [] := by
  cases l with
  | nil => exact absurd rfl hl
  | cons s ss =>
    cases ss with
    | nil =>
      have := (hv s (by simp)).1
      simpa [interSegs] using this
    | cons t ts =>
      have h2 : interSegs (s :: t :: ts) = s ++ '/' :: interSegs (t :: ts) := rfl
      rw [h2]
      simp

/-- Running the backtracking loop over a separator-free block followed
by a separator consumes the block and the separator. -/
theorem popLoop_run (xs : List Char) :
    (∀ x ∈ xs, x ≠ '/') → ∀ c, c ≠ '/' → ∀ m,
      popLoop 1 c (xs ++ '/' :: m) = if m = [] then ['/'] else m := by
  induction xs with
  | nil =>
    intro _ c hc m
    simp only [List.nil_append]
    cases m with
    | nil =>
      rw [if_pos rfl, popLoop, if_neg (by simp)]
    | cons y ys =>
      have hlen : ('/' :: y :: ys).length > 1 := by
        simp only [List.length_cons]; omega
      rw [if_neg (by simp), popLoop, if_pos ⟨hlen, hc⟩, popLoop, if_neg (by simp)]
  | cons x xs ih =>
    intro hxs c hc m
    have hx : x ≠ '/' := hxs x (by simp)
    have hlen : (x :: (xs ++ '/' :: m)).length > 1 := by
      simp only [List.length_cons, List.length_append]; omega
    rw [List.cons_append, popLoop, if_pos ⟨hlen, hc⟩]
    exact ih (fun y hy => hxs y (by simp [hy])) x hx m

/-- The `..` backtracking step removes exactly the last path element of
a rooted buffer. -/
theorem cleanBacktrack_segs (segs : List (List Char)) (l : List Char)
    (hl : l ≠ []) (hl2 : ∀ x ∈ l, x ≠ '/') :
    cleanBacktrack 1 (('/' :: interSegs (segs ++ [l])).reverse)
      = ('/' :: interSegs segs).reverse := by
  obtain ⟨b, bs, hrev⟩ : ∃ b bs, l.reverse = b :: bs := by
    cases hr : l.reverse with
    | nil => exact absurd (by simpa using congrArg List.reverse hr) hl
    | cons b bs => exact ⟨b, bs, rfl⟩
  have hmem : ∀ x ∈ l.reverse, x ≠ '/' := fun x hx => hl2 x (by simpa using hx)
  have hb : b ≠ '/' := hmem b (by rw [hrev]; simp)
  have hbs : ∀ x ∈ bs, x ≠ '/' := fun x hx => hmem x (by rw [hrev]; simp [hx])
  cases segs with
  | nil =>
    have hshape : ('/' :: interSegs ([] ++ [l])).reverse = b :: (bs ++ '/' :: []) := by
      show ('/' :: interSegs [l]).reverse = _
      have : interSegs [l] = l := rfl
      rw [this]
      simp [hrev]
    rw [hshape]
    show popLoop 1 b (bs ++ '/' :: []) = _
    rw [popLoop_run bs hbs b hb []]
    rfl
  | cons s ss =>
    have hshape : ('/' :: interSegs ((s :: ss) ++ [l])).reverse
        = b :: (bs ++ '/' :: ((interSegs (s :: ss)).reverse ++ ['/'])) := by
      rw [interSegs_concat (s :: ss) l (by simp)]
      simp [hrev]
    rw [hshape]
    show popLoop 1 b (bs ++ '/' :: ((interSegs (s :: ss)).reverse ++ ['/'])) = _
    rw [popLoop_run bs hbs b hb ((interSegs (s :: ss)).reverse ++ ['/'])]
    rw [if_neg (by simp)]
    simp

/-- For a rooted run of the cleaning loop (`rooted = true`,
`dotdot = 1`, buffer holding a rooted path of valid elements), the
buffer remains a rooted path of valid elements: `.` and empty elements
are skipped, `..` pops one element (never past the root), and only
ordinary elements are appended. -/
theorem cleanLoopF_rooted_inv (f : Nat) :
    ∀ (p : List Char) (segs : List (List Char)), (∀ s ∈ segs, ValidSeg s) →
      ∃ segs2, (∀ s ∈ segs2, ValidSeg s) ∧
        (cleanLoopF f true 1 (('/' :: interSegs segs).reverse) p).2
          = ('/' :: interSegs segs2).reverse := by
  induction f with
  | zero =>
    intro p segs hsegs
    cases p with
    | nil => exact ⟨segs, hsegs, rfl⟩
    | cons c rest => exact ⟨segs, hsegs, rfl⟩
  | succ f ih =>
    intro p segs hsegs
    cases p with
    | nil => exact ⟨segs, hsegs, rfl⟩
    | cons c rest =>
      rw [cleanLoopF]
      by_cases h1 : c = '/'
      · rw [if_pos h1]; exact ih rest segs hsegs
      · rw [if_neg h1]
        by_cases h2 : c = '.' ∧ (rest = [] ∨ rest.head? = some '/')
        · rw [if_pos h2]; exact ih rest segs hsegs
        · rw [if_neg h2]
          by_cases h3 : c = '.' ∧ rest.head? = some '.' ∧
              (rest.tail = [] ∨ rest.tail.head? = some '/')
          · rw [if_pos h3]
            by_cases h4 : (('/' :: interSegs segs).reverse).length > 1
            · rw [if_pos h4]
              have hsegs_ne : segs ≠ [] := by
                intro hnil
                rw [hnil] at h4
                simp [interSegs] at h4
              rcases List.eq_nil_or_concat segs with hnil | ⟨segs0, l, hsnoc⟩
              · exact absurd hnil hsegs_ne
              · have hsnoc2 : segs = segs0 ++ [l] := by simpa using hsnoc
                have hlv : ValidSeg l := hsegs l (by rw [hsnoc2]; simp)
                rw [hsnoc2, cleanBacktrack_segs segs0 l hlv.1 hlv.2.1]
                exact ih rest.tail segs0
                  (fun s hs => hsegs s (by rw [hsnoc2]; simp [hs]))
            · rw [if_neg h4, if_neg (by simp)]
              exact ih rest.tail segs hsegs
          · rw [if_neg h3]
            have hseg_cons : (c :: rest).takeWhile (fun x => x ≠ '/')
                = c :: rest.takeWhile (fun x => x ≠ '/') := by
              rw [List.takeWhile_cons, if_pos (by simp [h1])]
            have hvs : ValidSeg (c :: rest.takeWhile (fun x => x ≠ '/')) := by
              refine ⟨by simp, ?_, ?_, ?_⟩
              · intro x hx
                rcases List.mem_cons.mp hx with rfl | hx
                · exact h1
                · simpa using List.mem_takeWhile_imp hx
              · intro hdot
                rw [List.cons.injEq] at hdot
                obtain ⟨hc, hrest⟩ := hdot
                apply h2
                refine ⟨hc, ?_⟩
                cases rest with
                | nil => exact Or.inl rfl
                | cons y ys =>
                  right
                  rw [List.takeWhile_cons] at hrest
                  by_cases hy : y = '/'
                  · simp [hy]
                  · rw [if_pos (by simp [hy])] at hrest
                    simp at hrest
              · intro hdd
                rw [List.cons.injEq] at hdd
                obtain ⟨hc, hrest⟩ := hdd
                apply h3
                refine ⟨hc, ?_⟩
                cases rest with
                | nil => simp at hrest
                | cons y ys =>
                  rw [List.takeWhile_cons] at hrest
                  by_cases hy : y = '/'
                  · rw [if_neg (by simp [hy])] at hrest
                    simp at hrest
                  · rw [if_pos (by simp [hy])] at hrest
                    rw [List.cons.injEq] at hrest
                    obtain ⟨hy2, hys⟩ := hrest
                    refine ⟨by simp [hy2], ?_⟩
                    cases ys with
                    | nil => exact Or.inl rfl
                    | cons z zs =>
                      right
                      rw [List.takeWhile_cons] at hys
                      by_cases hz : z = '/'
                      · simp [hz]
                      · rw [if_pos (by simp [hz])] at hys
                        simp at hys
            by_cases hsegs_nil : segs = []
            · subst hsegs_nil
              rw [if_neg (by simp [interSegs])]
              show ∃ segs2, (∀ s ∈ segs2, ValidSeg s) ∧
                (cleanLoopF f true 1
                    (((c :: rest).takeWhile (fun x => x ≠ '/')).reverse
                      ++ ('/' :: interSegs []).reverse)
                    ((c :: rest).dropWhile (fun x => x ≠ '/'))).2
                  = ('/' :: interSegs segs2).reverse
              have hshape : ((c :: rest).takeWhile (fun x => x ≠ '/')).reverse
                    ++ ('/' :: interSegs []).reverse
                  = ('/' :: interSegs [(c :: rest).takeWhile (fun x => x ≠ '/')]).reverse := by
                simp [interSegs]
              rw [hshape, hseg_cons]
              exact ih ((c :: rest).dropWhile (fun x => x ≠ '/'))
                [c :: rest.takeWhile (fun x => x ≠ '/')]
                (fun s hs => by rw [List.mem_singleton] at hs; rw [hs]; exact hvs)
            · have hlen2 : (('/' :: interSegs segs).reverse).length ≠ 1 := by
                simp only [List.length_reverse, List.length_cons]
                intro hcontra
                exact interSegs_ne_nil segs hsegs_nil hsegs
                  (List.length_eq_zero.mp (by omega))
              rw [if_pos (Or.inl ⟨rfl, hlen2⟩)]
              show ∃ segs2, (∀ s ∈ segs2, ValidSeg s) ∧
                (cleanLoopF f true 1
                    (((c :: rest).takeWhile (fun x => x ≠ '/')).reverse
                      ++ '/' :: ('/' :: interSegs segs).reverse)
                    ((c :: rest).dropWhile (fun x => x ≠ '/'))).2
                  = ('/' :: interSegs segs2).reverse
              have hshape : ((c :: rest).takeWhile (fun x => x ≠ '/')).reverse
                    ++ '/' :: ('/' :: interSegs segs).reverse
                  = ('/' :: interSegs (segs ++ [(c :: rest).takeWhile (fun x => x ≠ '/')])).reverse := by
                rw [interSegs_concat segs _ hsegs_nil]
                simp
              rw [hshape, hseg_cons]
              exact ih ((c :: rest).dropWhile (fun x => x ≠ '/'))
                (segs ++ [c :: rest.takeWhile (fun x => x ≠ '/')])
                (fun s hs => by
                  rcases List.mem_append.mp hs with h | h
                  · exact hsegs s h
                  · rw [List.mem_singleton] at h; rw [h]; exact hvs)

/-- Cleaning a request path forced absolute yields a rooted path made
of valid elements only: no `..`, `.` or empty element survives. -/
theorem goPathClean_rooted (s : String) :
    ∃ segs, (∀ t ∈ segs, ValidSeg t) ∧
      goPathClean ("/" ++ s) = ⟨'/' :: interSegs segs⟩ := by
  have hdata : ("/" ++ s).data = '/' :: s.data := rfl
  have hne : ("/" ++ s) ≠ "" := by
    intro hc
    have h2 := congrArg String.data hc
    rw [hdata] at h2
    simp at h2
  obtain ⟨segs, hv, hout⟩ :=
    cleanLoopF_rooted_inv (("/" ++ s).data.length) s.data [] (by simp)
  refine ⟨segs, hv, ?_⟩
  unfold goPathClean
  rw [if_neg hne]
  show (if (cleanLoopF (("/" ++ s).data.length) true 1 ['/'] s.data).2 = [] then "."
        else ⟨((cleanLoopF (("/" ++ s).data.length) true 1 ['/'] s.data).2).reverse⟩)
      = (⟨'/' :: interSegs segs⟩ : String)
  rw [show (('/' :: interSegs []) : List Char).reverse = ['/'] from rfl] at hout
  rw [hout, if_neg (by simp), List.reverse_reverse]

/-- C1: for every root (including the empty string, normalized to `.`)
and every request path — any number of `..` segments included — the
request-derived component that `SanitizedPathJoin` joins onto the root
is `/` followed by ordinary path elements only (no `..`, `.` or empty
element survives the cleaning), so the joined, cleaned result cannot
escape above the root; the spec's end-to-end traversal example holds
concretely. -/
theorem c1_sanitized_join_no_traversal (root reqPath : String) :
    ∃ segs : List (List Char), (∀ t ∈ segs, ValidSeg t) ∧
      goPathClean ("/" ++ reqPath) = ⟨'/' :: interSegs segs⟩ ∧
      SanitizedPathJoin root reqPath =
        (if goHasSuffix reqPath "/" ∧ reqPath.length > 1 then
          goFilepathJoin (if root = "" then "." else root) ⟨'/' :: interSegs segs⟩ ++ "/"
        else goFilepathJoin (if root = "" then "." else root) ⟨'/' :: interSegs segs⟩) ∧
      SanitizedPathJoin "/site" "/../../etc/passwd" = "/site/etc/passwd" := by
  obtain ⟨segs, hv, hcl⟩ := goPathClean_rooted reqPath
  refine ⟨segs, hv, hcl, ?_, by decide⟩
  unfold SanitizedPathJoin
  rw [hcl]

/-- If the input ends in the element `a` (preceded by separators), the
cleaning loop ends with `a` on top of the buffer, whatever the initial
state: the final buffer starts (reversed) with `a`. -/
theorem cleanLoopF_tail_elem (f : Nat) :
    ∀ (xs : List Char) (r : Bool) (dd : Nat) (out : List Char),
      xs.length + 3 ≤ f →
      ((cleanLoopF f r dd out (xs ++ ['/', '/', 'a'])).2).head? = some 'a' := by
  induction f with
  | zero => intro xs r dd out hle; omega
  | succ f ih =>
    intro xs r dd out hle
    cases xs with
    | nil =>
      obtain ⟨f2, rfl⟩ : ∃ f2, f = f2 + 1 + 1 := ⟨f - 2, by omega⟩
      simp [cleanLoopF]
    | cons x xs2 =>
      have hxs2 : xs2.length + 3 ≤ f := by
        simp only [List.length_cons] at hle; omega
      rw [List.cons_append, cleanLoopF]
      by_cases h1 : x = '/'
      · rw [if_pos h1]; exact ih xs2 r dd out hxs2
      · rw [if_neg h1]
        by_cases h2 : x = '.' ∧ ((xs2 ++ ['/', '/', 'a']) = [] ∨
            (xs2 ++ ['/', '/', 'a']).head? = some '/')
        · rw [if_pos h2]; exact ih xs2 r dd out hxs2
        · rw [if_neg h2]
          by_cases h3 : x = '.' ∧ (xs2 ++ ['/', '/', 'a']).head? = some '.' ∧
              ((xs2 ++ ['/', '/', 'a']).tail = [] ∨
                (xs2 ++ ['/', '/', 'a']).tail.head? = some '/')
          · rw [if_pos h3]
            obtain ⟨y, ys, rfl⟩ : ∃ y ys, xs2 = y :: ys := by
              cases xs2 with
              | nil =>
                exfalso
                have := h3.2.1
                simp at this
              | cons y ys => exact ⟨y, ys, rfl⟩
            have htail : ((y :: ys) ++ ['/', '/', 'a']).tail = ys ++ ['/', '/', 'a'] := rfl
            rw [htail]
            have hys : ys.length + 3 ≤ f := by
              simp only [List.length_cons] at hxs2; omega
            by_cases h4 : out.length > dd
            · rw [if_pos h4]; exact ih ys r dd _ hys
            · rw [if_neg h4]
              by_cases h5 : r = false
              · rw [if_pos h5]; exact ih ys r _ _ hys
              · rw [if_neg h5]; exact ih ys r dd out hys
          · rw [if_neg h3]
            have hx : (fun z => decide (z ≠ '/')) x = true := by simp [h1]
            have hdrop : (x :: (xs2 ++ ['/', '/', 'a'])).dropWhile (fun z => z ≠ '/')
                = xs2.dropWhile (fun z => z ≠ '/') ++ ['/', '/', 'a'] := by
              rw [List.dropWhile_cons, if_pos hx, List.dropWhile_append]
              split
              · rename_i hemp
                rw [List.isEmpty_iff] at hemp
                rw [hemp]
                rfl
              · rfl
            rw [hdrop]
            exact ih (xs2.dropWhile (fun z => z ≠ '/')) r dd _
              (by have := dropWhile_len_le (fun z => decide (z ≠ '/')) xs2; omega)

/-- Unfolding `goPathClean` on a rooted input. -/
theorem goPathClean_rooted_run (u : String) (hu : u ≠ "")
    (hh : u.data.head? = some '/') :
    goPathClean u =
      (if (cleanLoopF u.data.length true 1 ['/'] u.data.tail).2 = [] then "."
       else ⟨((cleanLoopF u.data.length true 1 ['/'] u.data.tail).2).reverse⟩) := by
  unfold goPathClean
  rw [if_neg hu]
  simp [hh]

/-- Unfolding `goPathClean` on a non-rooted input. -/
theorem goPathClean_not_rooted_run (u : String) (hu : u ≠ "")
    (hh : u.data.head? ≠ some '/') :
    goPathClean u =
      (if (cleanLoopF u.data.length false 0 [] u.data).2 = [] then "."
       else ⟨((cleanLoopF u.data.length false 0 [] u.data).2).reverse⟩) := by
  unfold goPathClean
  rw [if_neg hu]
  simp [hh]

/-- Cleaning any path of the shape `t//a` ends in the character `a`. -/
theorem goPathClean_tail_a (t : String) (ht : t ≠ "") :
    (goPathClean (t ++ "//a")).data.getLast? = some 'a' := by
  obtain ⟨c, cs, hcs⟩ : ∃ c cs, t.data = c :: cs := by
    cases hd : t.data with
    | nil =>
      exact absurd (String.ext (hd.trans rfl) : t = "") ht
    | cons c cs => exact ⟨c, cs, rfl⟩
  have hdata : (t ++ "//a").data = c :: (cs ++ ['/', '/', 'a']) := by
    show t.data ++ ['/', '/', 'a'] = _
    rw [hcs]
    rfl
  have hne : (t ++ "//a") ≠ "" := by
    intro hc
    have h2 := congrArg String.data hc
    rw [hdata] at h2
    simp at h2
  by_cases hc2 : c = '/'
  · -- rooted run
    subst hc2
    have htail : (t ++ "//a").data.tail = cs ++ ['/', '/', 'a'] := by rw [hdata]; rfl
    have hlen : cs.length + 3 ≤ (t ++ "//a").data.length := by
      rw [hdata]
      simp only [List.length_cons, List.length_append]
      omega
    have hout := cleanLoopF_tail_elem ((t ++ "//a").data.length) cs true 1 ['/'] hlen
    have hrooted : (t ++ "//a").data.head? = some '/' := by rw [hdata]; rfl
    rw [goPathClean_rooted_run _ hne hrooted, htail]
    rw [if_neg (by intro h0; rw [h0] at hout; simp at hout)]
    show ((cleanLoopF ((t ++ "//a").data.length) true 1 ['/']
        (cs ++ ['/', '/', 'a'])).2).reverse.getLast? = some 'a'
    rw [List.getLast?_reverse]
    exact hout
  · rw [goPathClean_not_rooted_run _ hne (by rw [hdata]; simp [hc2])]
    rw [hdata]
    rw [show (c :: (cs ++ ['/', '/', 'a'])) = (c :: cs) ++ ['/', '/', 'a'] from rfl]
    have hout := cleanLoopF_tail_elem (((c :: cs) ++ ['/', '/', 'a']).length)
      (c :: cs) false 0 []
      (by simp only [List.length_cons, List.length_append]; omega)
    rw [if_neg (by intro h0; rw [h0] at hout; simp at hout)]
    show ((cleanLoopF (((c :: cs) ++ ['/', '/', 'a']).length) false 0 []
        ((c :: cs) ++ ['/', '/', 'a'])).2).reverse.getLast? = some 'a'
    rw [List.getLast?_reverse]
    exact hout

/-- C5: `SanitizedPathJoin` preserves trailing-slash-ness unless the
resolved path denotes the root itself: the request `/a/` yields a
result ending in a separator, the request `/a` yields one that does
not, and the request `/` (normalized length 1) gets no separator
appended — it yields the bare join denoting the root itself, the same
result as the empty request. -/
theorem c5_trailing_slash (root : String) :
    (SanitizedPathJoin root "/a/").data.getLast? = some '/' ∧
    (SanitizedPathJoin root "/a").data.getLast? ≠ some '/' ∧
    SanitizedPathJoin root "/" = goFilepathJoin (if root = "" then "." else root) "/" ∧
    SanitizedPathJoin root "/" = SanitizedPathJoin root "" := by
  refine ⟨?_, ?_, ?_, ?_⟩
  · unfold SanitizedPathJoin
    rw [if_pos (by decide)]
    show ((goFilepathJoin (if root = "" then "." else root)
        (goPathClean ("/" ++ "/a/"))).data ++ ['/']).getLast? = some '/'
    exact List.getLast?_concat _
  · unfold SanitizedPathJoin
    rw [if_neg (by decide)]
    rw [show goPathClean ("/" ++ "/a") = "/a" by decide]
    have hr2 : (if root = "" then "." else root) ≠ "" := by
      split
      · decide
      · rename_i h; exact h
    unfold goFilepathJoin
    rw [if_pos hr2]
    rw [show (if root = "" then "." else root) ++ "/" ++ "/a"
        = (if root = "" then "." else root) ++ "//a" from String.ext (by
          show ((if root = "" then "." else root).data ++ ['/']) ++ ['/', 'a']
            = (if root = "" then "." else root).data ++ ['/', '/', 'a']
          simp)]
    rw [goPathClean_tail_a _ hr2]
    simp
  · rfl
  · rfl
